import Mathlib

/-!
# Verification of pip's `search` command (`pip/commands/search.py`)

A shallow embedding of the hit-aggregation (`transform_hits`), version
comparison (`highest_version`), report rendering (`print_results`) and
file-driven search (`search_from_files`) logic, together with theorems
settling the specification claims.

Python dictionaries are embedded as association lists in insertion order,
`sorted(..., reverse=True)` as a stable descending insertion sort (stable
sorts agree on their output, so this is observationally the same list),
and fallible dictionary/list accesses as `Except String` values carrying
the Python exception name.
-/

namespace PipSearch

/-! ## Version parsing (spec-modelled collaborator)

`pip._vendor.packaging.version.parse` is not part of the source under
verification.  Modelled from the spec: the parser follows the ecosystem's
standard version scheme (PEP 440): epoch, dotted numeric release segments
compared numerically (not lexicographically), pre-release (below the final
release), post-release, dev-release and local segments.  A string that does
not parse is ordered deterministically below every valid version (the
spec leaves the fallback to the implementer; we order invalid strings
among themselves by their character codes).  Each version string is mapped
to a flattened comparison key in `List Nat`, compared lexicographically.
-/

/-- Numeric value of a list of decimal digit characters. -/
def digitsVal (cs : List Char) : Nat :=
  cs.foldl (fun a c => a * 10 + (c.toNat - 48)) 0

/-- Split off a leading run of digits. -/
def takeDigits (cs : List Char) : List Char × List Char :=
  (cs.takeWhile (·.isDigit), cs.dropWhile (·.isDigit))

/-- Parse an optional `N!` epoch; returns `(0, input)` when absent. -/
def parseEpoch (cs : List Char) : Nat × List Char :=
  let p := takeDigits cs
  match p.2 with
  | '!' :: rest => if p.1 = [] then (0, cs) else (digitsVal p.1, rest)
  | _ => (0, cs)

/-- Split a character list on `'.'` separators. -/
def splitDots : List Char → List (List Char)
  | [] => [[]]
  | '.' :: rest => [] :: splitDots rest
  | c :: rest =>
    match splitDots rest with
    | p :: ps => (c :: p) :: ps
    | [] => [[c]]

/-- Parse the dotted numeric release segment, e.g. `1.0.3`.  A trailing dot
belongs to the following segment (as in `1.0.post1`) and is given back. -/
def parseRelease (cs : List Char) : Option (List Nat × List Char) :=
  let isRel : Char → Bool := fun c => c.isDigit || c == '.'
  let relChars := cs.takeWhile isRel
  let rest := cs.dropWhile isRel
  let parts := splitDots relChars
  let pr : List (List Char) × List Char :=
    match parts.getLast? with
    | some [] => (parts.dropLast, '.' :: rest)
    | _ => (parts, rest)
  if pr.1 = [] ∨ pr.1.any (· = []) then none
  else some (pr.1.map digitsVal, pr.2)

/-- Match a literal word at the head of the input, returning the remainder. -/
def matchChars : List Char → List Char → Option (List Char)
  | [], rest => some rest
  | p :: ps, c :: cs => if p = c then matchChars ps cs else none
  | _ :: _, [] => none

/-- Try a list of words (longest first), returning the associated value and
the remainder after the first word that matches. -/
def matchFirstWord : List (List Char × Nat) → List Char → Option (Nat × List Char)
  | [], _ => none
  | (w, v) :: ws, cs =>
    match matchChars w cs with
    | some rest => some (v, rest)
    | none => matchFirstWord ws cs

/-- Skip one optional `.`/`-`/`_` separator. -/
def sepSkip (cs : List Char) : List Char :=
  match cs with
  | c :: rest => if c == '.' || c == '-' || c == '_' then rest else cs
  | [] => []

/-- Pre-release spellings and their phases: alpha < beta < release candidate. -/
def preWords : List (List Char × Nat) :=
  [("alpha".toList, 0), ("beta".toList, 1), ("preview".toList, 2), ("pre".toList, 2),
   ("rc".toList, 2), ("a".toList, 0), ("b".toList, 1), ("c".toList, 2)]

/-- Parse an optional pre-release segment, e.g. `a1`, `.rc3`, `b`. -/
def parsePre (cs : List Char) : Option (Nat × Nat) × List Char :=
  match matchFirstWord preWords (sepSkip cs) with
  | some (phase, rest) =>
    let p := takeDigits (sepSkip rest)
    if p.1 = [] then (some (phase, 0), rest)
    else (some (phase, digitsVal p.1), p.2)
  | none => (none, cs)

/-- Post-release spellings. -/
def postWords : List (List Char × Nat) :=
  [("post".toList, 0), ("rev".toList, 0), ("r".toList, 0)]

/-- Parse an explicit post-release word, e.g. `.post1`, `rev2`. -/
def parsePostWord (cs : List Char) : Option Nat × List Char :=
  match matchFirstWord postWords (sepSkip cs) with
  | some (_, rest) =>
    let p := takeDigits (sepSkip rest)
    if p.1 = [] then (some 0, rest)
    else (some (digitsVal p.1), p.2)
  | none => (none, cs)

/-- Parse an optional post-release segment, including the implicit `-N` form. -/
def parsePost (cs : List Char) : Option Nat × List Char :=
  match cs with
  | '-' :: rest =>
    let p := takeDigits rest
    if p.1 = [] then parsePostWord ('-' :: rest) else (some (digitsVal p.1), p.2)
  | _ => parsePostWord cs

/-- Parse an optional dev-release segment, e.g. `.dev1`. -/
def parseDev (cs : List Char) : Option Nat × List Char :=
  match matchChars "dev".toList (sepSkip cs) with
  | some rest =>
    let p := takeDigits (sepSkip rest)
    if p.1 = [] then (some 0, rest)
    else (some (digitsVal p.1), p.2)
  | none => (none, cs)

/-- Split a local-version body on `.`/`-`/`_` separators. -/
def localSegs : List Char → List (List Char)
  | [] => [[]]
  | c :: rest =>
    if c == '.' || c == '-' || c == '_' then [] :: localSegs rest
    else match localSegs rest with
      | p :: ps => (c :: p) :: ps
      | [] => [[c]]

/-- Comparison key of one local-version segment: numeric segments order above
alphanumeric ones, numerically; alphanumeric ones by their characters. -/
def localSegKey (seg : List Char) : List Nat :=
  if seg.all (·.isDigit) then [1, digitsVal seg] else 0 :: seg.map (·.toNat)

/-- Parse the optional `+local` tail; anything else left over makes the whole
version invalid.  No local segment orders below any local segment. -/
def parseLocal : List Char → Option (List Nat)
  | [] => some [0]
  | '+' :: rest =>
    let segs := localSegs rest
    if segs.any (· = []) || !(segs.all (fun s => s.all (·.isAlphanum))) then none
    else some (1 :: (segs.map localSegKey).flatten)
  | _ => none

/-- Drop trailing zero release segments, so that `1.0` and `1` compare equal
(PEP 440 zero-padding). -/
def trimZeros (l : List Nat) : List Nat :=
  (l.reverse.dropWhile (· == 0)).reverse

/-- Parse a normalized (lowercased) version string into its flattened
comparison key, or `none` when invalid.  Layout of the key for a valid
version (each slot's length is determined by its leading marker, so keys
agreeing on a prefix stay slot-aligned under lexicographic comparison):
`[1, epoch] ++ release digits (each + 3) ++ pre slot ++ post slot ++
dev slot ++ local slot`, where the pre slot is `[0]` for a dev-only
release (below every pre-release), `[1, phase, n]` for a pre-release and
`[2]` otherwise (a final/post release, above every pre-release); the post
slot is `[0]` when absent and `[1, n]` when present; the dev slot is
`[0, d]` when present (below) and `[1]` when absent; the local slot is
`[0]` when absent and `1 ::` the segment keys when present. -/
def parseValid (cs0 : List Char) : Option (List Nat) := do
  let cs1 := match cs0 with | 'v' :: rest => rest | _ => cs0
  let e := parseEpoch cs1
  let (release, cs2) ← parseRelease e.2
  let p1 := parsePre cs2
  let p2 := parsePost p1.2
  let p3 := parseDev p2.2
  let lkey ← parseLocal p3.2
  let preSlot : List Nat :=
    match p1.1, p2.1, p3.1 with
    | none, none, some _ => [0]
    | some pr, _, _ => [1, pr.1, pr.2]
    | none, _, _ => [2]
  let postSlot : List Nat := match p2.1 with | some n => [1, n] | none => [0]
  let devSlot : List Nat := match p3.1 with | some d => [0, d] | none => [1]
  some ([1, e.1] ++ (trimZeros release).map (· + 3) ++ preSlot ++ postSlot ++ devSlot ++ lkey)

/-- ASCII lowercasing of one character (version parsing is case-insensitive). -/
def lowerChar (c : Char) : Char :=
  if 65 ≤ c.toNat ∧ c.toNat ≤ 90 then Char.ofNat (c.toNat + 32) else c

/-- Modelled from the spec: `pip._vendor.packaging.version.parse` (vendored
code, not under the verified sources).  Parses a version string into a
comparison key ordered by the ecosystem's semantic version ordering; an
unparsable string sorts deterministically below every valid version. -/
def parse_version (s : String) : List Nat :=
  let cs := s.data.map lowerChar
  match parseValid cs with
  | some key => key
  | none => 0 :: cs.map (·.toNat)

/-- Strict lexicographic comparison of version comparison keys (the order
Python's tuple/list comparison gives the parsed versions). -/
def keyLt : List Nat → List Nat → Bool
  | [], [] => false
  | [], _ :: _ => true
  | _ :: _, [] => false
  | a :: as, b :: bs => if a < b then true else if b < a then false else keyLt as bs

/-- Non-strict companion of `keyLt`. -/
def keyLe (a b : List Nat) : Bool := !(keyLt b a)

/-- The loop of Python's `max(versions, key=parse_version)`: keep the current
best unless the next element's key is strictly greater (so ties keep the
earlier element). -/
def pickMax (v : String) (vs : List String) : String :=
  vs.foldl (fun best y => if keyLt (parse_version best) (parse_version y) then y else best) v

/-- The function `highest_version(versions)`, i.e. `max(versions, key=parse_version)`.  Python's
`max` keeps the current best on ties, so the first occurrence of the maximal
parsed value is returned; `max` of an empty sequence raises, embedded as
`none`. -/
def highest_version (versions : List String) : Option String :=
  match versions with
  | [] => none
  | v :: vs => some (pickMax v vs)

/-! ## Hit aggregation (`transform_hits`)

A hit is an XML-RPC record (a Python dict).  `name`, `summary` and `version`
are always present (spec data model); the `_pypi_ordering` score key may be
absent, `None`, or a number.  The code reads `hit['_pypi_ordering']`, which
raises `KeyError` on an absent key, and replaces `None` by `0`; fallible
steps are embedded in `Except String` carrying the Python exception name,
and the per-hit loop as `foldlM` (the first exception aborts the loop).
Python dicts preserve insertion order, so the `packages` dict is an
association list in first-seen order. -/

/-- The `_pypi_ordering` field of a hit: a possibly absent, possibly `None`
numeric score. -/
inductive ScoreField where
  | absent
  | null
  | val (n : Int)
deriving DecidableEq, Repr

/-- One version-level search hit `{name, summary, version, _pypi_ordering}`. -/
structure Hit where
  name : String
  summary : String
  version : String
  score : ScoreField
deriving DecidableEq, Repr

/-- One aggregated per-package record `{name, summary, versions, score}`. -/
structure PackageRecord where
  name : String
  summary : String
  versions : List String
  score : Int
deriving DecidableEq, Repr

/-- Lines 104-106, `score = hit['_pypi_ordering']; if score is None: score = 0`: an absent
key raises `KeyError`, `None` becomes `0`. -/
def readScore : ScoreField → Except String Int
  | .absent => .error "KeyError"
  | .null => .ok 0
  | .val n => .ok n

/-- The already-seen branch of the loop body: append the hit's version, then
overwrite `summary` and `score` iff the just-appended version equals
`highest_version` of the grown versions list. -/
def updateRecord (r : PackageRecord) (hit : Hit) (score : Int) : PackageRecord :=
  let versions := r.versions ++ [hit.version]
  if highest_version versions = some hit.version then
    { r with versions := versions, summary := hit.summary, score := score }
  else
    { r with versions := versions }

/-- The loop body of `transform_hits` once the score has been read: create a
fresh record for an unseen name (dict insertion appends in insertion order),
update the existing record otherwise. -/
def stepOk (packages : List PackageRecord) (hit : Hit) (score : Int) : List PackageRecord :=
  if packages.any (fun r => r.name == hit.name) then
    packages.map (fun r => if r.name == hit.name then updateRecord r hit score else r)
  else
    packages ++ [{ name := hit.name, summary := hit.summary,
                   versions := [hit.version], score := score }]

/-- The full loop body of `transform_hits` for one hit. -/
def step (packages : List PackageRecord) (hit : Hit) : Except String (List PackageRecord) :=
  match readScore hit.score with
  | .error e => .error e
  | .ok score => .ok (stepOk packages hit score)

/-- The loop of `transform_hits`: fold the hits into the `packages` dict. -/
def aggregate (hits : List Hit) : Except String (List PackageRecord) :=
  hits.foldlM step []

/-- Insert a record into a list sorted by score descending, before the first
record whose score is not larger (so an earlier record wins ties). -/
def insertDesc (r : PackageRecord) : List PackageRecord → List PackageRecord
  | [] => [r]
  | x :: xs => if r.score < x.score then x :: insertDesc r xs else r :: x :: xs

/-- Stable descending sort by score, embedding Python's stable
`sorted(..., key=lambda x: x['score'], reverse=True)` (all stable
descending sorts produce the same list). -/
def sortDesc : List PackageRecord → List PackageRecord
  | [] => []
  | x :: xs => insertDesc x (sortDesc xs)

/-- The function `transform_hits`: aggregate the flat version-level hit list into one
record per package and sort by score descending. -/
def transform_hits (hits : List Hit) : Except String (List PackageRecord) :=
  (aggregate hits).map sortDesc

/-! ## Report rendering (`print_results`)

The rendered rows are dicts again; `print_results` reads `name` and
`summary` unconditionally, `versions` via `hit.get('versions', ['-'])[-1]`
(tolerating an absent key, but raising `IndexError` on a present empty
list) for the headline, and via `hit['versions']` (raising `KeyError` when
absent) for the installed-package annotation.  Output is the sequence of
lines handed to the logger; `pip.utils.logging.indent_log` (indentation) is
an external logging collaborator and the lines are modelled as the logged
strings.  A `UnicodeEncodeError` while logging one record's lines is
swallowed for the rest of that record only; `env.canEncode` models which
lines the output sink can encode.  The installed-package set and installed
versions (`pkg_resources`) are modelled from the spec as the read-only
collaborator `isInstalled`/`installedVersion`. -/

/-- A row as consumed by `print_results`: `versions` may be absent. -/
structure DisplayRecord where
  name : String
  summary : String
  versions : Option (List String)
deriving DecidableEq, Repr

/-- Modelled from the spec: the Installed Package Set collaborator
(`pkg_resources.working_set` / `get_distribution`) and the output sink's
per-line encoding capability. -/
structure Env where
  installed_packages : List String
  installedVersion : String → String
  canEncode : String → Bool

/-- Line 146, `hit.get('versions', ['-'])[-1]`: the last element of `versions`, `"-"`
when the key is absent, `IndexError` when the list is present but empty. -/
def lastVersionShown (h : DisplayRecord) : Except String String :=
  match h.versions with
  | none => .ok "-"
  | some vs =>
    match vs.getLast? with
    | some v => .ok v
    | none => .error "IndexError"

/-- Total form of `lastVersionShown` on records whose `versions` is not a
present-but-empty list. -/
def shownVer (h : DisplayRecord) : String :=
  match h.versions with
  | none => "-"
  | some vs => vs.getLastD "-"

/-- Largest element of a list of naturals (`max` over a non-empty list). -/
def maxNat (l : List Nat) : Nat := l.foldl max 0

/-- One term `len(hit['name']) + len(hit.get('versions', ['-'])[-1])` of the
width comprehension. -/
def recordWidth (h : DisplayRecord) : Except String Nat :=
  match lastVersionShown h with
  | .error e => .error e
  | .ok v => .ok (h.name.length + v.length)

/-- Lines 137-140, `max([len(hit['name']) + len(hit.get('versions', ['-'])[-1]) for hit in
hits]) + 4`, evaluated only on a non-empty `hits`. -/
def nameColumnWidthOf (hits : List DisplayRecord) : Except String Nat :=
  match hits.mapM recordWidth with
  | .error e => .error e
  | .ok ws => .ok (maxNat ws + 4)

/-- A run of `n` spaces. -/
def spaces (n : Nat) : String := String.mk (List.replicate n ' ')

/-- Python's `'%-*s' % (w, s)`: left-justify `s` in a field of width `w` (padding
only, no truncation). -/
def padTo (w : Nat) (s : String) : String := s ++ spaces (w - s.length)

/-- Split a character list at whitespace. -/
def splitOnSpaces : List Char → List (List Char)
  | [] => [[]]
  | c :: rest =>
    if c.isWhitespace then [] :: splitOnSpaces rest
    else
      match splitOnSpaces rest with
      | p :: ps => (c :: p) :: ps
      | [] => [[c]]

/-- Greedily pack words into lines of at most `width` characters (single
separating spaces); a word longer than `width` occupies its own line. -/
def greedyWrap (width : Nat) : List (List Char) → List Char → List (List Char)
  | [], cur => if cur = [] then [] else [cur]
  | w :: ws, cur =>
    if cur = [] then greedyWrap width ws w
    else if cur.length + 1 + w.length ≤ width then greedyWrap width ws (cur ++ ' ' :: w)
    else cur :: greedyWrap width ws w

/-- Modelled from the spec: `textwrap.wrap` (standard-library collaborator):
greedy word-wrap of `s` into lines of at most `width` characters; whitespace
is collapsed, an empty text yields no lines.  (The stdlib additionally
breaks words longer than `width`; that refinement is not modelled and no
claim depends on it.) -/
def wrapText (width : Nat) (s : String) : List String :=
  ((greedyWrap width ((splitOnSpaces s.data).filter (· ≠ [])) []).map fun l => String.mk l)

/-- Lines 147–152: wrap the summary and join the wrapped lines with a
newline plus `name_column_width + 3` spaces exactly when a terminal width
is known and `terminal_width - name_column_width - 5 > 10`. -/
def renderSummary (ncw : Nat) (tw : Option Int) (s : String) : String :=
  match tw with
  | none => s
  | some t =>
    let target : Int := t - ncw - 5
    if 10 < target then
      String.intercalate ("\n" ++ spaces (ncw + 3)) (wrapText target.toNat s)
    else s

/-- The headline of one record:
`'%-*s - %s' % (ncw, '%s (%s)' % (name, version), summary)`. -/
def mainLine (ncw : Nat) (tw : Option Int) (h : DisplayRecord) (ver : String) : String :=
  padTo ncw (h.name ++ " (" ++ ver ++ ")") ++ " - " ++ renderSummary ncw tw h.summary

/-- The installed-package annotation of one record: nothing when the name is
not installed; otherwise the single `INSTALLED: ... (latest)` line when the
installed version equals `highest_version` of the record's full versions
list, and the `INSTALLED:`/`LATEST:` pair otherwise.  `hit['versions']`
raises `KeyError` when absent, and `max` of an empty versions list raises
`ValueError`. -/
def annotLines (env : Env) (h : DisplayRecord) : Except String (List String) :=
  if h.name ∈ env.installed_packages then
    match h.versions with
    | none => .error "KeyError"
    | some vs =>
      match highest_version vs with
      | none => .error "ValueError"
      | some latest =>
        let iv := env.installedVersion h.name
        if iv = latest then .ok ["INSTALLED: " ++ iv ++ " (latest)"]
        else .ok ["INSTALLED: " ++ iv, "LATEST:    " ++ latest]
  else .ok []

/-- Longest prefix of encodable lines: a line the sink cannot encode raises
`UnicodeEncodeError`, which is swallowed, dropping the record's remaining
lines. -/
def emitEnc (env : Env) : List String → List String
  | [] => []
  | l :: ls => if env.canEncode l then l :: emitEnc env ls else []

/-- The lines one record contributes, paired with the uncaught exception (if
any) aborting the whole report after them.  The headline is logged before
the annotation is computed, so an annotation failure keeps the headline;
a `UnicodeEncodeError` on the headline skips the record's annotation
entirely (and is caught). -/
def recordLines (env : Env) (ncw : Nat) (tw : Option Int) (h : DisplayRecord) :
    List String × Option String :=
  match lastVersionShown h with
  | .error e => ([], some e)
  | .ok ver =>
    let line := mainLine ncw tw h ver
    if env.canEncode line then
      match annotLines env h with
      | .error e => ([line], some e)
      | .ok annot => (line :: emitEnc env annot, none)
    else ([], none)

/-- Sequencing of one record's output before the rest of the loop: an
uncaught exception in the record drops the rest of the loop's lines. -/
def chainOut (first rest : List String × Option String) : List String × Option String :=
  match first.2 with
  | some e => (first.1, some e)
  | none => (first.1 ++ rest.1, rest.2)

/-- The record loop of `print_results`: concatenate each record's lines,
stopping at the first uncaught exception. -/
def printLoop (env : Env) (ncw : Nat) (tw : Option Int) :
    List DisplayRecord → List String × Option String
  | [] => ([], none)
  | h :: rest => chainOut (recordLines env ncw tw h) (printLoop env ncw tw rest)

/-- Lines 136–140: take the explicit `name_column_width` when given, compute
it otherwise. -/
def ncwOf (name_column_width : Option Nat) (hits : List DisplayRecord) : Except String Nat :=
  match name_column_width with
  | some w => Except.ok w
  | none => nameColumnWidthOf hits

/-- The function `print_results(hits, name_column_width=None, terminal_width=None)`:
the emitted lines paired with the uncaught exception (if any) that aborted
the report. -/
def print_results (hits : List DisplayRecord) (name_column_width : Option Nat)
    (terminal_width : Option Int) (env : Env) : List String × Option String :=
  if hits.isEmpty then ([], none)
  else
    match ncwOf name_column_width hits with
    | .error e => ([], some e)
    | .ok ncw => printLoop env ncw terminal_width hits

/-! ## File-driven search (`SearchCommand.search_from_files`)

The XML-RPC index and the requirement-file parser are external
collaborators.  Modelled from the spec: the Remote Query Client offers
`package_releases` (latest-first release list of a name) and
`release_data(name, version)` (a hit, or nothing); the Requirement-file
collaborator yields `{name, specifier}` entries, a specifier being a list
of version constraints each carrying an operator and a version text.  The
code takes `list(req.specifier)[0].version` under a bare `except:` that
falls back to `pypi.package_releases(req.name)[0]` — whose own `[0]` on an
empty release list raises an uncaught `IndexError`.  The per-file loops are
flattened into one entry list. -/

/-- One version constraint of a specifier, e.g. operator `>=`, version
`1.5`. -/
structure Specifier where
  op : String
  version : String
deriving DecidableEq, Repr

/-- One requirement entry `{name, specifier}` parsed from a file. -/
structure Requirement where
  name : String
  specifier : List Specifier
deriving DecidableEq, Repr

/-- The package index collaborator. -/
structure Pypi where
  package_releases : String → List String
  release_data : String → String → Option Hit

/-- The version used for the `release_data` lookup of one entry:
`list(req.specifier)[0].version` when the specifier list is non-empty
(whatever its operator), else `pypi.package_releases(req.name)[0]`. -/
def fileVersion (idx : Pypi) (req : Requirement) : Except String String :=
  match req.specifier with
  | s :: _ => .ok s.version
  | [] =>
    match idx.package_releases req.name with
    | v :: _ => .ok v
    | [] => .error "IndexError"

/-- The loop body of `search_from_files` for one entry: look up the release
data at the resolved version; an empty result contributes no hit. -/
def stepReq (idx : Pypi) (hits : List Hit) (req : Requirement) : Except String (List Hit) :=
  match fileVersion idx req with
  | .error e => .error e
  | .ok ver =>
    match idx.release_data req.name ver with
    | some r => .ok (hits ++ [r])
    | none => .ok hits

/-- The method `search_from_files`: fold the requirement entries into a hit list. -/
def search_from_files (idx : Pypi) (reqs : List Requirement) : Except String (List Hit) :=
  reqs.foldlM (stepReq idx) []

/-! ## Concrete index data used by the C9 analysis -/

/-- The hit the index returns for `foo` at version `1.5`. -/
def hitFrom15 : Hit :=
  { name := "foo", summary := "from-1.5", version := "1.5", score := ScoreField.val 1 }

/-- The hit the index returns for `foo` at its latest version `9.9`. -/
def hitFrom99 : Hit :=
  { name := "foo", summary := "from-9.9", version := "9.9", score := ScoreField.val 2 }

/-- An index whose latest release of every package is `9.9`, with
distinguishable release data at `1.5` and `9.9`. -/
def idxC9 : Pypi :=
  { package_releases := fun _ => ["9.9"],
    release_data := fun _ v =>
      if v = "1.5" then some hitFrom15
      else if v = "9.9" then some hitFrom99
      else none }

/-- An index that knows no releases at all. -/
def idxEmpty : Pypi :=
  { package_releases := fun _ => [], release_data := fun _ _ => none }

/-- A requirement whose specifier constrains but does not pin exactly:
`foo>=1.5`. -/
def reqGe : Requirement :=
  { name := "foo", specifier := [{ op := ">=", version := "1.5" }] }

/-- A bare requirement with no version constraint. -/
def reqBar : Requirement := { name := "bar", specifier := [] }

/-! ## Concrete rendering environments and rows used in witnesses -/

/-- An environment with nothing installed and an all-capable sink. -/
def envPlain : Env :=
  { installed_packages := [], installedVersion := fun _ => "", canEncode := fun _ => true }

/-- An environment where `foo` is installed at version `1.0`. -/
def envFoo : Env :=
  { installed_packages := ["foo"], installedVersion := fun _ => "1.0",
    canEncode := fun _ => true }

/-- A one-version row. -/
def rowFoo : DisplayRecord :=
  { name := "foo", summary := "sum", versions := some ["1.0"] }

/-- A two-version row whose last-discovered version is also the highest. -/
def rowFoo2 : DisplayRecord :=
  { name := "foo", summary := "sum", versions := some ["1.0", "2.0"] }

/-! ## Observation helpers used by the theorems -/

/-- Dictionary lookup in the `packages` association list. -/
def lookupRecord (packages : List PackageRecord) (n : String) : Option PackageRecord :=
  packages.find? (fun r => r.name == n)

/-- Index of the first hit bearing a given name (first-seen position). -/
def firstNameIdx (hits : List Hit) (n : String) : Nat :=
  hits.findIdx (fun h => h.name == n)

/-- Loop invariant of `transform_hits` relating the `packages` dict to the
hits processed so far: one record per seen name, records in first-seen
order, each record's `versions` being exactly that name's versions in
input order. -/
structure Inv (processed : List Hit) (packages : List PackageRecord) : Prop where
  names_sub : ∀ r ∈ packages, ∃ h ∈ processed, h.name = r.name
  names_complete : ∀ h ∈ processed, ∃ r ∈ packages, r.name = h.name
  nodup : (packages.map PackageRecord.name).Nodup
  ordered : packages.Pairwise (fun a b =>
    firstNameIdx processed a.name < firstNameIdx processed b.name)
  versions_eq : ∀ r ∈ packages,
    r.versions = (processed.filter (fun h => h.name == r.name)).map Hit.version

/-! ## Order facts for version comparison keys -/

theorem keyLt_irrefl : ∀ a, keyLt a a = false
  | [] => rfl
  | _ :: as => by simp [keyLt, keyLt_irrefl as]

theorem keyLt_asymm : ∀ a b, keyLt a b = true → keyLt b a = false
  | [], [] => by simp [keyLt]
  | [], _ :: _ => by simp [keyLt]
  | _ :: _, [] => by simp [keyLt]
  | a :: as, b :: bs => by
    simp only [keyLt]
    rcases Nat.lt_trichotomy a b with h | h | h
    · simp [h, Nat.lt_asymm h]
    · subst h
      simp only [Nat.lt_irrefl, if_false]
      exact keyLt_asymm as bs
    · simp [h, Nat.lt_asymm h]

theorem keyLt_trans : ∀ a b c, keyLt a b = true → keyLt b c = true → keyLt a c = true
  | _, b, [] => by cases b <;> simp [keyLt]
  | [], [], _ => by simp [keyLt]
  | [], _ :: _, _ :: _ => by simp [keyLt]
  | _ :: _, [], _ :: _ => by simp [keyLt]
  | a :: as, b :: bs, c :: cs => by
    simp only [keyLt]
    rcases Nat.lt_trichotomy a b with hab | hab | hab
    · rcases Nat.lt_trichotomy b c with hbc | hbc | hbc
      · simp [Nat.lt_trans hab hbc]
      · subst hbc; simp [hab]
      · simp [hab, Nat.lt_asymm hab, hbc, Nat.lt_asymm hbc]
    · subst hab
      rcases Nat.lt_trichotomy a c with hac | hac | hac
      · simp [hac]
      · subst hac; simp [Nat.lt_irrefl]; exact keyLt_trans as bs cs
      · simp [hac, Nat.lt_asymm hac]
    · simp [hab, Nat.lt_asymm hab]

theorem keyLt_connex : ∀ a b, keyLt a b = false → keyLt b a = false → a = b
  | [], [] => by simp
  | [], _ :: _ => by simp [keyLt]
  | _ :: _, [] => by simp [keyLt]
  | a :: as, b :: bs => by
    simp only [keyLt]
    rcases Nat.lt_trichotomy a b with h | h | h
    · simp [h]
    · subst h
      simp only [Nat.lt_irrefl, if_false]
      intro h1 h2
      rw [keyLt_connex as bs h1 h2]
    · simp [h]

/-- The relation `keyLe` is transitive (needed to chain maximality facts). -/
theorem keyLe_trans {a b c : List Nat} (h1 : keyLe a b = true) (h2 : keyLe b c = true) :
    keyLe a c = true := by
  simp only [keyLe, Bool.not_eq_true'] at h1 h2 ⊢
  cases hca : keyLt c a with
  | false => rfl
  | true =>
    cases hab : keyLt a b with
    | true => exact absurd (keyLt_trans c a b hca hab) (by simp [h2])
    | false =>
      have hab2 : a = b := keyLt_connex a b hab h1
      subst hab2
      rw [hca] at h2
      exact Bool.noConfusion h2

theorem keyLt_le {a b : List Nat} (h : keyLt a b = true) : keyLe a b = true := by
  simp [keyLe, keyLt_asymm _ _ h]

theorem keyLe_refl (a : List Nat) : keyLe a a = true := by
  simp [keyLe, keyLt_irrefl]

theorem keyLt_of_lt_of_le {a b c : List Nat} (h1 : keyLt a b = true) (h2 : keyLe b c = true) :
    keyLt a c = true := by
  simp only [keyLe, Bool.not_eq_true'] at h2
  cases hbc : keyLt b c with
  | true => exact keyLt_trans a b c h1 hbc
  | false =>
    have hbc2 : b = c := keyLt_connex b c hbc h2
    exact hbc2 ▸ h1

theorem keyLt_of_le_of_lt {a b c : List Nat} (h1 : keyLe a b = true) (h2 : keyLt b c = true) :
    keyLt a c = true := by
  simp only [keyLe, Bool.not_eq_true'] at h1
  cases hab : keyLt a b with
  | true => exact keyLt_trans a b c hab h2
  | false =>
    have hab2 : a = b := keyLt_connex a b hab h1
    exact hab2 ▸ h2

/-! ## `highest_version` is Python's stable `max` by parsed key -/

/-- The first-maximum characterisation of the fold inside `highest_version`:
the result splits the input around the returned element, everything before
it is strictly below it, and nothing exceeds it. -/
theorem pickMax_spec (vs : List String) : ∀ (v : String),
    ∃ l₁ l₂,
      v :: vs = l₁ ++ pickMax v vs :: l₂ ∧
      (∀ w ∈ l₁, keyLt (parse_version w) (parse_version (pickMax v vs)) = true) ∧
      (∀ w ∈ v :: vs, keyLe (parse_version w) (parse_version (pickMax v vs)) = true) := by
  induction vs with
  | nil =>
    intro v
    refine ⟨[], [], rfl, by simp, ?_⟩
    intro w hw
    rcases List.mem_cons.mp hw with rfl | hw
    · exact keyLe_refl _
    · exact absurd hw (List.not_mem_nil w)
  | cons y ys ih =>
    intro v
    have hstepeq : pickMax v (y :: ys) =
        pickMax (if keyLt (parse_version v) (parse_version y) then y else v) ys := rfl
    by_cases hvy : keyLt (parse_version v) (parse_version y) = true
    · rw [hstepeq, if_pos hvy]
      obtain ⟨l₁, l₂, heq, hstrict, hle⟩ := ih y
      refine ⟨v :: l₁, l₂, by rw [List.cons_append, ← heq], ?_, ?_⟩
      · intro w hw
        rcases List.mem_cons.mp hw with rfl | hw
        · exact keyLt_of_lt_of_le hvy (hle y (List.mem_cons_self y ys))
        · exact hstrict w hw
      · intro w hw
        rcases List.mem_cons.mp hw with rfl | hw
        · exact keyLt_le (keyLt_of_lt_of_le hvy (hle y (List.mem_cons_self y ys)))
        · exact hle w hw
    · rw [hstepeq, if_neg hvy]
      rw [Bool.not_eq_true] at hvy
      have hyv : keyLe (parse_version y) (parse_version v) = true := by
        simp [keyLe, hvy]
      obtain ⟨l₁, l₂, heq, hstrict, hle⟩ := ih v
      cases l₁ with
      | nil =>
        simp only [List.nil_append] at heq
        injection heq with h1 h2
        refine ⟨[], y :: ys, ?_, by simp, ?_⟩
        · rw [List.nil_append, ← h1]
        · intro w hw
          rcases List.mem_cons.mp hw with rfl | hw
          · exact hle w (List.mem_cons_self w ys)
          · rcases List.mem_cons.mp hw with rfl | hw
            · exact keyLe_trans hyv (hle v (List.mem_cons_self v ys))
            · exact hle w (List.mem_cons_of_mem v hw)
      | cons a l₁' =>
        rw [List.cons_append] at heq
        injection heq with h1 h2
        subst h1
        have hv_strict : keyLt (parse_version v) (parse_version (pickMax v ys)) = true :=
          hstrict v (List.mem_cons_self v l₁')
        refine ⟨v :: y :: l₁', l₂, ?_, ?_, ?_⟩
        · rw [List.cons_append, List.cons_append, ← h2]
        · intro w hw
          rcases List.mem_cons.mp hw with rfl | hw
          · exact hv_strict
          · rcases List.mem_cons.mp hw with rfl | hw
            · exact keyLt_of_le_of_lt hyv hv_strict
            · exact hstrict w (List.mem_cons_of_mem v hw)
        · intro w hw
          rcases List.mem_cons.mp hw with rfl | hw
          · exact hle w (List.mem_cons_self w ys)
          · rcases List.mem_cons.mp hw with rfl | hw
            · exact keyLt_le (keyLt_of_le_of_lt hyv hv_strict)
            · exact hle w (List.mem_cons_of_mem v hw)

/-- Appending an element equal to the current maximum returns that same
element again: the overwrite condition of `transform_hits` holds for a
repeated maximal version. -/
theorem highest_version_append_self {vs : List String} {m : String}
    (h : highest_version vs = some m) : highest_version (vs ++ [m]) = some m := by
  match vs, h with
  | v :: vs', h =>
    simp only [highest_version, Option.some.injEq] at h
    unfold pickMax at h
    simp only [List.cons_append, highest_version, Option.some.injEq]
    unfold pickMax
    rw [List.foldl_append, h]
    simp only [List.foldl_cons, List.foldl_nil]
    exact ite_self m

/-! ## The already-seen branch of the aggregation loop -/

theorem updateRecord_name (r : PackageRecord) (hit : Hit) (score : Int) :
    (updateRecord r hit score).name = r.name := by
  simp only [updateRecord]
  split <;> rfl

/-- The update `updateRecord` written out: the versions list grows by the hit's version,
and summary/score are overwritten iff the appended version is the current
maximum of the grown list. -/
theorem updateRecord_eq (r : PackageRecord) (hit : Hit) (score : Int) :
    updateRecord r hit score =
      if highest_version (r.versions ++ [hit.version]) = some hit.version
      then { name := r.name, summary := hit.summary,
             versions := r.versions ++ [hit.version], score := score }
      else { name := r.name, summary := r.summary,
             versions := r.versions ++ [hit.version], score := r.score } := by
  simp only [updateRecord]

/-- Updating an already-seen name rewrites exactly that name's record. -/
theorem lookupRecord_stepOk_self (packages : List PackageRecord) (hit : Hit) (score : Int)
    (r : PackageRecord) (hfind : lookupRecord packages hit.name = some r) :
    lookupRecord (stepOk packages hit score) hit.name = some (updateRecord r hit score) := by
  unfold lookupRecord at hfind ⊢
  have hpr : (r.name == hit.name) = true := by
    have h2 := List.find?_some hfind
    exact h2
  have hany : packages.any (fun x => x.name == hit.name) = true :=
    List.any_eq_true.mpr ⟨r, List.mem_of_find?_eq_some hfind, hpr⟩
  unfold stepOk
  rw [if_pos hany, List.find?_map]
  have hcomp : ((fun x => x.name == hit.name) ∘ (fun x =>
      if x.name == hit.name then updateRecord x hit score else x)) =
      (fun x => x.name == hit.name) := by
    funext x
    by_cases hx : (x.name == hit.name) = true
    · simp [Function.comp, hx, updateRecord_name]
    · simp [Function.comp, hx]
  rw [hcomp, hfind]
  simp only [Option.map]
  rw [if_pos hpr]

/-- The aggregation loop body leaves every other name's record untouched. -/
theorem lookupRecord_stepOk_other (packages : List PackageRecord) (hit : Hit) (score : Int)
    (n : String) (hne : n ≠ hit.name) :
    lookupRecord (stepOk packages hit score) n = lookupRecord packages n := by
  unfold stepOk lookupRecord
  by_cases hany : packages.any (fun x => x.name == hit.name) = true
  · rw [if_pos hany, List.find?_map]
    have hcomp : ((fun x => x.name == n) ∘ (fun x =>
        if x.name == hit.name then updateRecord x hit score else x)) =
        (fun x => x.name == n) := by
      funext x
      by_cases hx : (x.name == hit.name) = true
      · simp [Function.comp, hx, updateRecord_name]
      · simp [Function.comp, hx]
    rw [hcomp]
    cases hfind : packages.find? (fun x => x.name == n) with
    | none => rfl
    | some r =>
      have hr : r.name = n := by
        simpa [beq_iff_eq] using List.find?_some hfind
      have hrn : ¬ (r.name == hit.name) = true := by
        rw [beq_iff_eq, hr]
        exact hne
      simp only [Option.map]
      rw [if_neg hrn]
  · rw [if_neg hany, List.find?_append]
    have hnone : List.find? (fun x => x.name == n)
        ([{ name := hit.name, summary := hit.summary,
            versions := [hit.version], score := score }] : List PackageRecord) = none := by
      simp only [List.find?]
      have : (hit.name == n) = false := by
        rw [beq_eq_false_iff_ne]
        exact Ne.symm hne
      rw [this]
    rw [hnone, Option.or_none]

/-- C3.  For a hit whose name was already seen, the loop body appends the
hit's version to the record's versions list and overwrites the record's
summary and score with the hit's values if and only if the appended version
equals `highest_version` of the grown list; every other record is left
unchanged. -/
theorem spec_C3 (packages : List PackageRecord) (hit : Hit) (score : Int) (r : PackageRecord)
    (hfind : lookupRecord packages hit.name = some r) :
    lookupRecord (stepOk packages hit score) hit.name =
      some (if highest_version (r.versions ++ [hit.version]) = some hit.version
            then { name := r.name, summary := hit.summary,
                   versions := r.versions ++ [hit.version], score := score }
            else { name := r.name, summary := r.summary,
                   versions := r.versions ++ [hit.version], score := r.score }) ∧
    (∀ n, n ≠ hit.name →
      lookupRecord (stepOk packages hit score) n = lookupRecord packages n) := by
  constructor
  · rw [lookupRecord_stepOk_self packages hit score r hfind, updateRecord_eq]
  · exact fun n hn => lookupRecord_stepOk_other packages hit score n hn

/-- Witness for C3 at a concrete input: a second hit for `a` with the
non-maximal version `1.0` grows the versions list but keeps the stored
summary and score. -/
theorem spec_C3_witness :
    lookupRecord (stepOk [{ name := "a", summary := "old", versions := ["2.0"], score := 5 }]
        { name := "a", summary := "new", version := "1.0", score := ScoreField.val 7 } 7) "a" =
      some (if highest_version (["2.0"] ++ ["1.0"]) = some "1.0"
            then { name := "a", summary := "new", versions := ["2.0"] ++ ["1.0"], score := 7 }
            else { name := "a", summary := "old", versions := ["2.0"] ++ ["1.0"], score := 5 }) :=
  (spec_C3 [{ name := "a", summary := "old", versions := ["2.0"], score := 5 }]
    { name := "a", summary := "new", version := "1.0", score := ScoreField.val 7 } 7
    { name := "a", summary := "old", versions := ["2.0"], score := 5 } rfl).1

/-- C10.  A later hit repeating the string that is currently the maximal
version of its record is appended as a duplicate, and (because `max` ties
break to the first occurrence, returning that same string) the record's
summary and score are overwritten with the later hit's values. -/
theorem spec_C10 (packages : List PackageRecord) (hit : Hit) (score : Int) (r : PackageRecord)
    (hfind : lookupRecord packages hit.name = some r)
    (hmax : highest_version r.versions = some hit.version) :
    lookupRecord (stepOk packages hit score) hit.name =
      some { name := r.name, summary := hit.summary,
             versions := r.versions ++ [hit.version], score := score } := by
  rw [lookupRecord_stepOk_self packages hit score r hfind, updateRecord_eq,
    if_pos (highest_version_append_self hmax)]

/-- Witness for C10 at a concrete input: repeating the maximal version `1.0`
overwrites summary and score. -/
theorem spec_C10_witness :
    lookupRecord (stepOk [{ name := "a", summary := "old", versions := ["1.0", "0.5"], score := 5 }]
        { name := "a", summary := "new", version := "1.0", score := ScoreField.val 7 } 7) "a" =
      some { name := "a", summary := "new", versions := ["1.0", "0.5"] ++ ["1.0"], score := 7 } :=
  spec_C10 [{ name := "a", summary := "old", versions := ["1.0", "0.5"], score := 5 }]
    { name := "a", summary := "new", version := "1.0", score := ScoreField.val 7 } 7
    { name := "a", summary := "old", versions := ["1.0", "0.5"], score := 5 } rfl (by decide)

/-- C4.  `highest_version` of a non-empty list returns the first element
whose parsed key is maximal under the semantic version ordering (everything
before it is strictly smaller, nothing in the list is larger); the claimed
concrete evaluations hold, and the empty list is a failure. -/
theorem spec_C4 :
    (∀ vs : List String, vs ≠ [] →
      ∃ m l₁ l₂, highest_version vs = some m ∧ vs = l₁ ++ m :: l₂ ∧
        (∀ w ∈ l₁, keyLt (parse_version w) (parse_version m) = true) ∧
        (∀ w ∈ vs, keyLe (parse_version w) (parse_version m) = true)) ∧
    highest_version ["1.0", "2.0", "1.5"] = some "2.0" ∧
    highest_version ["1.0a1", "1.0"] = some "1.0" ∧
    highest_version ([] : List String) = none := by
  refine ⟨?_, by decide, by decide, rfl⟩
  intro vs hvs
  match vs with
  | v :: vs' =>
    obtain ⟨l₁, l₂, heq, hstrict, hle⟩ := pickMax_spec vs' v
    exact ⟨pickMax v vs', l₁, l₂, rfl, heq, hstrict, hle⟩

/-- Witness for C4 at a concrete input. -/
theorem spec_C4_witness :
    ∃ m l₁ l₂, highest_version ["1.0a1", "1.0"] = some m ∧
      ["1.0a1", "1.0"] = l₁ ++ m :: l₂ ∧
      (∀ w ∈ l₁, keyLt (parse_version w) (parse_version m) = true) ∧
      (∀ w ∈ ["1.0a1", "1.0"], keyLe (parse_version w) (parse_version m) = true) :=
  spec_C4.1 ["1.0a1", "1.0"] (by simp)

/-! ## First-seen indices -/

theorem findIdx_append_of_exists {α : Type} (p : α → Bool) :
    ∀ (l₁ l₂ : List α), (∃ x ∈ l₁, p x = true) →
      (l₁ ++ l₂).findIdx p = l₁.findIdx p
  | [], _, h => absurd h (by simp)
  | a :: l, l₂, h => by
    rw [List.cons_append, List.findIdx_cons, List.findIdx_cons]
    cases hpa : p a with
    | true => rfl
    | false =>
      have h2 : ∃ x ∈ l, p x = true := by
        obtain ⟨x, hx, hpx⟩ := h
        rcases List.mem_cons.mp hx with rfl | hx
        · rw [hpa] at hpx
          exact Bool.noConfusion hpx
        · exact ⟨x, hx, hpx⟩
      simp only [Bool.cond_false]
      rw [findIdx_append_of_exists p l l₂ h2]

theorem findIdx_append_of_none {α : Type} (p : α → Bool) :
    ∀ (l₁ l₂ : List α), (∀ x ∈ l₁, p x = false) →
      (l₁ ++ l₂).findIdx p = l₁.length + l₂.findIdx p
  | [], l₂, _ => by simp
  | a :: l, l₂, h => by
    rw [List.cons_append, List.findIdx_cons, h a (List.mem_cons_self a l)]
    simp only [Bool.cond_false]
    rw [findIdx_append_of_none p l l₂ (fun x hx => h x (List.mem_cons_of_mem a hx))]
    simp only [List.length_cons]
    omega

/-- A name seen among the processed hits keeps its first-seen index when
more hits are processed. -/
theorem firstNameIdx_append_of_seen {processed : List Hit} {n : String}
    (h : ∃ x ∈ processed, x.name = n) (rest : List Hit) :
    firstNameIdx (processed ++ rest) n = firstNameIdx processed n := by
  unfold firstNameIdx
  apply findIdx_append_of_exists
  obtain ⟨x, hx, hxn⟩ := h
  exact ⟨x, hx, beq_iff_eq.mpr hxn⟩

theorem firstNameIdx_lt_of_seen {processed : List Hit} {n : String}
    (h : ∃ x ∈ processed, x.name = n) :
    firstNameIdx processed n < processed.length := by
  unfold firstNameIdx
  rw [List.findIdx_lt_length]
  obtain ⟨x, hx, hxn⟩ := h
  exact ⟨x, hx, beq_iff_eq.mpr hxn⟩

/-- An unseen name appended to the processed hits is first seen at the old
length. -/
theorem firstNameIdx_append_self {processed : List Hit} (hit : Hit)
    (h : ∀ x ∈ processed, x.name ≠ hit.name) :
    firstNameIdx (processed ++ [hit]) hit.name = processed.length := by
  unfold firstNameIdx
  rw [findIdx_append_of_none _ _ _ (fun x hx => beq_eq_false_iff_ne.mpr (h x hx))]
  have hself : List.findIdx (fun h2 => h2.name == hit.name) [hit] = 0 := by
    simp [List.findIdx_cons]
  rw [hself, Nat.add_zero]

/-! ## The aggregation loop preserves the invariant -/

theorem stepOk_inv {processed : List Hit} {packages : List PackageRecord}
    (hInv : Inv processed packages) (hit : Hit) (score : Int) :
    Inv (processed ++ [hit]) (stepOk packages hit score) := by
  by_cases hseen : packages.any (fun r => r.name == hit.name) = true
  · -- seen: update in place
    unfold stepOk
    rw [if_pos hseen]
    have gname : ∀ r : PackageRecord,
        ((if r.name == hit.name then updateRecord r hit score else r)).name = r.name := by
      intro r
      by_cases hx : (r.name == hit.name) = true
      · simp [hx, updateRecord_name]
      · simp [hx]
    have hnames : (packages.map (fun r =>
        if r.name == hit.name then updateRecord r hit score else r)).map PackageRecord.name =
        packages.map PackageRecord.name := by
      rw [List.map_map]
      exact List.map_congr_left (fun r _ => gname r)
    refine ⟨?_, ?_, ?_, ?_, ?_⟩
    · intro r' hr'
      obtain ⟨r0, hr0, hr0eq⟩ := List.mem_map.mp hr'
      obtain ⟨h, hh, hhn⟩ := hInv.names_sub r0 hr0
      exact ⟨h, List.mem_append_left _ hh, by rw [hhn, ← hr0eq, gname r0]⟩
    · intro h hh
      rcases List.mem_append.mp hh with hh | hh
      · obtain ⟨r, hr, hrn⟩ := hInv.names_complete h hh
        exact ⟨_, List.mem_map_of_mem _ hr, by rw [gname r, hrn]⟩
      · have hh2 : h = hit := by simpa using hh
        obtain ⟨r, hr, hrp⟩ := List.any_eq_true.mp hseen
        refine ⟨_, List.mem_map_of_mem _ hr, ?_⟩
        rw [gname r, hh2]
        exact beq_iff_eq.mp hrp
    · rw [hnames]
      exact hInv.nodup
    · rw [List.pairwise_map]
      apply List.Pairwise.imp_of_mem ?_ hInv.ordered
      intro a b ha hb hab
      rw [gname a, gname b,
        firstNameIdx_append_of_seen (hInv.names_sub a ha) [hit],
        firstNameIdx_append_of_seen (hInv.names_sub b hb) [hit]]
      exact hab
    · intro r' hr'
      obtain ⟨r0, hr0, hr0eq⟩ := List.mem_map.mp hr'
      by_cases hx : (r0.name == hit.name) = true
      · rw [if_pos hx] at hr0eq
        subst hr0eq
        have hvers : (updateRecord r0 hit score).versions = r0.versions ++ [hit.version] := by
          rw [updateRecord_eq]
          split <;> rfl
        rw [hvers, updateRecord_name, List.filter_append, List.map_append,
          ← hInv.versions_eq r0 hr0]
        have hfhit : List.filter (fun h => h.name == r0.name) [hit] = [hit] := by
          have : (hit.name == r0.name) = true := by
            rw [beq_iff_eq]
            exact (beq_iff_eq.mp hx).symm
          simp [List.filter, this]
        rw [hfhit]
        rfl
      · rw [if_neg hx] at hr0eq
        subst hr0eq
        rw [List.filter_append]
        have hfhit : List.filter (fun h => h.name == r0.name) [hit] = [] := by
          have : (hit.name == r0.name) = false := by
            rw [beq_eq_false_iff_ne]
            intro hc
            exact hx (beq_iff_eq.mpr hc.symm)
          simp [List.filter, this]
        rw [hfhit, List.append_nil]
        exact hInv.versions_eq r0 hr0
  · -- unseen: append a fresh record
    unfold stepOk
    rw [if_neg hseen]
    have hnone : ∀ r ∈ packages, (r.name == hit.name) = false := by
      intro r hr
      cases hpa : (r.name == hit.name) with
      | false => rfl
      | true => exact absurd (List.any_eq_true.mpr ⟨r, hr, hpa⟩) hseen
    have hfresh : ∀ x ∈ processed, x.name ≠ hit.name := by
      intro x hx hc
      obtain ⟨r, hr, hrn⟩ := hInv.names_complete x hx
      have := hnone r hr
      rw [hrn, hc] at this
      simp at this
    refine ⟨?_, ?_, ?_, ?_, ?_⟩
    · intro r' hr'
      rcases List.mem_append.mp hr' with hr' | hr'
      · obtain ⟨h, hh, hhn⟩ := hInv.names_sub r' hr'
        exact ⟨h, List.mem_append_left _ hh, hhn⟩
      · cases List.mem_singleton.mp hr'
        exact ⟨hit, List.mem_append_right _ (List.mem_cons_self hit []), rfl⟩
    · intro h hh
      rcases List.mem_append.mp hh with hh | hh
      · obtain ⟨r, hr, hrn⟩ := hInv.names_complete h hh
        exact ⟨r, List.mem_append_left _ hr, hrn⟩
      · have hh2 : h = hit := by simpa using hh
        subst hh2
        exact ⟨_, List.mem_append_right _ (List.mem_cons_self _ []), rfl⟩
    · rw [List.map_append]
      rw [List.nodup_append]
      refine ⟨hInv.nodup, by simp, ?_⟩
      intro n hn hn2
      have hn3 : n = hit.name := by simpa using hn2
      subst hn3
      obtain ⟨r, hr, hrn⟩ := List.mem_map.mp hn
      have := hnone r hr
      rw [beq_eq_false_iff_ne] at this
      exact this hrn
    · rw [List.pairwise_append]
      refine ⟨?_, by simp, ?_⟩
      · apply List.Pairwise.imp_of_mem ?_ hInv.ordered
        intro a b ha hb hab
        rw [firstNameIdx_append_of_seen (hInv.names_sub a ha) [hit],
          firstNameIdx_append_of_seen (hInv.names_sub b hb) [hit]]
        exact hab
      · intro a ha b hb
        cases List.mem_singleton.mp hb
        show firstNameIdx (processed ++ [hit]) a.name < firstNameIdx (processed ++ [hit]) hit.name
        rw [firstNameIdx_append_of_seen (hInv.names_sub a ha) [hit],
          firstNameIdx_append_self hit hfresh]
        exact firstNameIdx_lt_of_seen (hInv.names_sub a ha)
    · intro r' hr'
      rcases List.mem_append.mp hr' with hr' | hr'
      · rw [List.filter_append]
        have hfhit : List.filter (fun h => h.name == r'.name) [hit] = [] := by
          have : (hit.name == r'.name) = false := by
            rw [beq_eq_false_iff_ne]
            intro hc
            have := hnone r' hr'
            rw [beq_eq_false_iff_ne] at this
            exact this hc.symm
          simp [List.filter, this]
        rw [hfhit, List.append_nil]
        exact hInv.versions_eq r' hr'
      · cases List.mem_singleton.mp hr'
        show [hit.version] =
          ((processed ++ [hit]).filter (fun h => h.name == hit.name)).map Hit.version
        rw [List.filter_append]
        have hfproc : List.filter (fun h => h.name == hit.name) processed = [] := by
          rw [List.filter_eq_nil_iff]
          intro x hx
          simp only [beq_iff_eq]
          exact hfresh x hx
        rw [hfproc, List.nil_append]
        have hpa : (hit.name == hit.name) = true := by simp
        simp [List.filter, hpa]

theorem foldlM_inv : ∀ (hits processed : List Hit) (packages out : List PackageRecord),
    Inv processed packages → List.foldlM step packages hits = .ok out →
    Inv (processed ++ hits) out
  | [], processed, packages, out, hInv, hfold => by
    simp only [List.foldlM_nil] at hfold
    cases hfold
    simpa using hInv
  | hit :: hits, processed, packages, out, hInv, hfold => by
    rw [List.foldlM_cons] at hfold
    cases hstep : step packages hit with
    | error e =>
      rw [hstep] at hfold
      exact Except.noConfusion
        (show (Except.error e : Except String (List PackageRecord)) = Except.ok out from hfold)
    | ok p' =>
      rw [hstep] at hfold
      have hfold2 : List.foldlM step p' hits = Except.ok out := hfold
      unfold step at hstep
      cases hscore : readScore hit.score with
      | error e =>
        rw [hscore] at hstep
        exact Except.noConfusion hstep
      | ok score =>
        rw [hscore] at hstep
        injection hstep with h2
        subst h2
        have IH := foldlM_inv hits (processed ++ [hit]) _ out (stepOk_inv hInv hit score) hfold2
        rw [List.append_assoc, List.singleton_append] at IH
        exact IH

/-- The full aggregation loop establishes the invariant. -/
theorem aggregate_inv {hits : List Hit} {out : List PackageRecord}
    (h : aggregate hits = .ok out) : Inv hits out := by
  unfold aggregate at h
  have h0 : Inv [] [] := by
    refine ⟨?_, ?_, ?_, ?_, ?_⟩ <;> simp
  have h1 := foldlM_inv hits [] [] out h0 h
  simpa using h1

/-! ## The stable descending sort -/

theorem mem_insertDesc (r : PackageRecord) :
    ∀ (l : List PackageRecord) (x : PackageRecord), x ∈ insertDesc r l → x = r ∨ x ∈ l
  | [], x, h => Or.inl (by simpa [insertDesc] using h)
  | y :: ys, x, h => by
    unfold insertDesc at h
    split at h
    · rcases List.mem_cons.mp h with rfl | h2
      · exact Or.inr (List.mem_cons_self x ys)
      · rcases mem_insertDesc r ys x h2 with h3 | h3
        · exact Or.inl h3
        · exact Or.inr (List.mem_cons_of_mem y h3)
    · rcases List.mem_cons.mp h with rfl | h2
      · exact Or.inl rfl
      · exact Or.inr h2

theorem sorted_insertDesc (r : PackageRecord) :
    ∀ (l : List PackageRecord), l.Pairwise (fun a b => b.score ≤ a.score) →
      (insertDesc r l).Pairwise (fun a b => b.score ≤ a.score)
  | [], _ => by simp [insertDesc]
  | y :: ys, hsort => by
    unfold insertDesc
    rw [List.pairwise_cons] at hsort
    obtain ⟨hy, hys⟩ := hsort
    split
    case isTrue hlt =>
      rw [List.pairwise_cons]
      refine ⟨?_, sorted_insertDesc r ys hys⟩
      intro b hb
      rcases mem_insertDesc r ys b hb with rfl | hb2
      · exact le_of_lt hlt
      · exact hy b hb2
    case isFalse hge =>
      rw [List.pairwise_cons]
      refine ⟨?_, List.pairwise_cons.mpr ⟨hy, hys⟩⟩
      intro b hb
      rcases List.mem_cons.mp hb with rfl | hb2
      · exact not_lt.mp hge
      · exact le_trans (hy b hb2) (not_lt.mp hge)

theorem sorted_sortDesc : ∀ l : List PackageRecord,
    (sortDesc l).Pairwise (fun a b => b.score ≤ a.score)
  | [] => by simp [sortDesc]
  | x :: xs => sorted_insertDesc x (sortDesc xs) (sorted_sortDesc xs)

theorem perm_insertDesc (r : PackageRecord) :
    ∀ l : List PackageRecord, (insertDesc r l).Perm (r :: l)
  | [] => List.Perm.refl _
  | y :: ys => by
    unfold insertDesc
    split
    · exact ((perm_insertDesc r ys).cons y).trans (List.Perm.swap r y ys)
    · exact List.Perm.refl _

theorem perm_sortDesc : ∀ l : List PackageRecord, (sortDesc l).Perm l
  | [] => List.Perm.refl _
  | x :: xs => (perm_insertDesc x (sortDesc xs)).trans ((perm_sortDesc xs).cons x)

/-- Stability: inserting below keeps each score class's subsequence. -/
theorem filter_insertDesc (s : Int) (r : PackageRecord) :
    ∀ l : List PackageRecord,
      List.filter (fun x => x.score == s) (insertDesc r l) =
        if (r.score == s) = true
        then r :: List.filter (fun x => x.score == s) l
        else List.filter (fun x => x.score == s) l
  | [] => by
    by_cases hpr : (r.score == s) = true <;>
      simp [insertDesc, List.filter_cons, hpr]
  | y :: ys => by
    unfold insertDesc
    split
    case isTrue hlt =>
      rw [List.filter_cons, filter_insertDesc s r ys]
      by_cases hpr : (r.score == s) = true
      · have hpy : ¬ (y.score == s) = true := by
          rw [beq_iff_eq] at hpr ⊢
          intro hc
          rw [← hc] at hpr
          exact absurd hlt (by rw [hpr]; exact lt_irrefl _)
        rw [if_pos hpr, if_neg hpy, if_pos hpr, List.filter_cons, if_neg hpy]
      · rw [if_neg hpr, if_neg hpr, List.filter_cons]
    case isFalse hge =>
      rw [List.filter_cons]

theorem filter_sortDesc (s : Int) : ∀ l : List PackageRecord,
    List.filter (fun x => x.score == s) (sortDesc l) =
      List.filter (fun x => x.score == s) l
  | [] => rfl
  | x :: xs => by
    show List.filter _ (insertDesc x (sortDesc xs)) = _
    rw [filter_insertDesc, filter_sortDesc s xs, List.filter_cons]

/-- C1.  A successful `transform_hits` emits no two records with the same
name; each record's versions are exactly the versions of the input hits
bearing that name (so the two sets coincide); and every input hit's name
owns a record. -/
theorem spec_C1 (hits : List Hit) (out : List PackageRecord)
    (h : transform_hits hits = .ok out) :
    out.Pairwise (fun a b => a.name ≠ b.name) ∧
    (∀ r ∈ out, ∀ v, v ∈ r.versions ↔ ∃ h2 ∈ hits, h2.name = r.name ∧ h2.version = v) ∧
    (∀ h2 ∈ hits, ∃ r ∈ out, r.name = h2.name) := by
  unfold transform_hits at h
  cases hagg : aggregate hits with
  | error e =>
    rw [hagg] at h
    exact Except.noConfusion
      (show (Except.error e : Except String (List PackageRecord)) = Except.ok out from h)
  | ok agg =>
    rw [hagg] at h
    have hout : out = sortDesc agg := by
      have h2 : Except.ok (sortDesc agg) = Except.ok out := h
      injection h2 with h3
      exact h3.symm
    subst hout
    have hInv := aggregate_inv hagg
    have hperm := perm_sortDesc agg
    refine ⟨?_, ?_, ?_⟩
    · have hnodup : ((sortDesc agg).map PackageRecord.name).Nodup :=
        (List.Perm.nodup_iff (List.Perm.map _ hperm)).mpr hInv.nodup
      have hnodup2 : List.Pairwise (fun a b => a ≠ b)
          ((sortDesc agg).map PackageRecord.name) := hnodup
      exact (List.pairwise_map).mp hnodup2
    · intro r hr v
      have hr2 : r ∈ agg := (hperm.mem_iff).mp hr
      rw [hInv.versions_eq r hr2]
      constructor
      · intro hv
        obtain ⟨h2, hh2, hveq⟩ := List.mem_map.mp hv
        have hmem := List.mem_filter.mp hh2
        exact ⟨h2, hmem.1, beq_iff_eq.mp hmem.2, hveq⟩
      · rintro ⟨h2, hh2, hname, hver⟩
        exact List.mem_map.mpr ⟨h2, List.mem_filter.mpr ⟨hh2, beq_iff_eq.mpr hname⟩, hver⟩
    · intro h2 hh2
      obtain ⟨r, hr, hrn⟩ := hInv.names_complete h2 hh2
      exact ⟨r, (hperm.mem_iff).mpr hr, hrn⟩

/-- Witness for C1 at a concrete input. -/
theorem spec_C1_witness :
    ([({ name := "a", summary := "s", versions := ["1.0"], score := 1 } : PackageRecord)].Pairwise
      (fun a b => a.name ≠ b.name)) ∧
    (∀ r ∈ [({ name := "a", summary := "s", versions := ["1.0"], score := 1 } : PackageRecord)],
      ∀ v, v ∈ r.versions ↔
        ∃ h2 ∈ [({ name := "a", summary := "s", version := "1.0",
                   score := ScoreField.val 1 } : Hit)],
          h2.name = r.name ∧ h2.version = v) ∧
    (∀ h2 ∈ [({ name := "a", summary := "s", version := "1.0",
                score := ScoreField.val 1 } : Hit)],
      ∃ r ∈ [({ name := "a", summary := "s", versions := ["1.0"], score := 1 } : PackageRecord)],
        r.name = h2.name) :=
  spec_C1 [{ name := "a", summary := "s", version := "1.0", score := ScoreField.val 1 }]
    [{ name := "a", summary := "s", versions := ["1.0"], score := 1 }] rfl

/-- C2.  A successful `transform_hits` output is sorted by score descending,
and two records with equal scores appear in the first-seen order of their
names in the input hit list. -/
theorem spec_C2 (hits : List Hit) (out : List PackageRecord)
    (h : transform_hits hits = .ok out) :
    out.Pairwise (fun a b => b.score ≤ a.score) ∧
    (∀ a b : PackageRecord, [a, b].Sublist out → a.score = b.score →
      firstNameIdx hits a.name < firstNameIdx hits b.name) := by
  unfold transform_hits at h
  cases hagg : aggregate hits with
  | error e =>
    rw [hagg] at h
    exact Except.noConfusion
      (show (Except.error e : Except String (List PackageRecord)) = Except.ok out from h)
  | ok agg =>
    rw [hagg] at h
    have hout : out = sortDesc agg := by
      have h2 : Except.ok (sortDesc agg) = Except.ok out := h
      injection h2 with h3
      exact h3.symm
    subst hout
    have hInv := aggregate_inv hagg
    refine ⟨sorted_sortDesc agg, ?_⟩
    intro a b hsub hscore
    have hfab : List.filter (fun x => x.score == a.score) [a, b] = [a, b] := by
      have hpa : (a.score == a.score) = true := by simp
      have hpb : (b.score == a.score) = true := beq_iff_eq.mpr hscore.symm
      simp [List.filter_cons, hpa, hpb]
    have hsub2 : [a, b].Sublist (List.filter (fun x => x.score == a.score) (sortDesc agg)) := by
      rw [← hfab]
      exact List.Sublist.filter _ hsub
    rw [filter_sortDesc] at hsub2
    have hsub3 : [a, b].Sublist agg := hsub2.trans (List.filter_sublist agg)
    have hpair : ([a, b] : List PackageRecord).Pairwise (fun x y =>
        firstNameIdx hits x.name < firstNameIdx hits y.name) :=
      List.Pairwise.sublist hsub3 hInv.ordered
    exact (List.pairwise_cons.mp hpair).1 b (List.mem_cons_self b [])

/-- Witness for C2 at a concrete input (two packages, sorted by score). -/
theorem spec_C2_witness :
    ([({ name := "b", summary := "sb", versions := ["2.0"], score := 5 } : PackageRecord),
      { name := "a", summary := "sa", versions := ["1.0"], score := 1 }].Pairwise
        (fun a b => b.score ≤ a.score)) ∧
    (∀ a b : PackageRecord,
      [a, b].Sublist
        [({ name := "b", summary := "sb", versions := ["2.0"], score := 5 } : PackageRecord),
         { name := "a", summary := "sa", versions := ["1.0"], score := 1 }] →
      a.score = b.score →
      firstNameIdx
        [({ name := "a", summary := "sa", version := "1.0", score := ScoreField.val 1 } : Hit),
         { name := "b", summary := "sb", version := "2.0", score := ScoreField.val 5 }] a.name <
      firstNameIdx
        [({ name := "a", summary := "sa", version := "1.0", score := ScoreField.val 1 } : Hit),
         { name := "b", summary := "sb", version := "2.0", score := ScoreField.val 5 }] b.name) :=
  spec_C2
    [{ name := "a", summary := "sa", version := "1.0", score := ScoreField.val 1 },
     { name := "b", summary := "sb", version := "2.0", score := ScoreField.val 5 }]
    [{ name := "b", summary := "sb", versions := ["2.0"], score := 5 },
     { name := "a", summary := "sa", versions := ["1.0"], score := 1 }] rfl

/-! ## Null and absent scores -/

/-- The only exception the aggregation loop body raises is the `KeyError`
from an absent `_pypi_ordering` key. -/
theorem step_error_eq {packages : List PackageRecord} {x : Hit} {e : String}
    (hx : step packages x = .error e) : e = "KeyError" := by
  unfold step at hx
  cases hsc : x.score with
  | absent =>
    rw [hsc] at hx
    simp only [readScore] at hx
    injection hx with h1
    exact h1.symm
  | null =>
    rw [hsc] at hx
    simp only [readScore] at hx
    exact Except.noConfusion hx
  | val n =>
    rw [hsc] at hx
    simp only [readScore] at hx
    exact Except.noConfusion hx

/-- A hit with a `None` score behaves exactly like the same hit with score
`0`, anywhere in the loop. -/
theorem foldlM_step_null_congr (hits₂ : List Hit) (h : Hit) : ∀ (hits₁ : List Hit)
    (packages : List PackageRecord),
    List.foldlM step packages (hits₁ ++ { h with score := ScoreField.null } :: hits₂) =
      List.foldlM step packages (hits₁ ++ { h with score := ScoreField.val 0 } :: hits₂)
  | [], _ => rfl
  | x :: xs, packages => by
    rw [List.cons_append, List.cons_append, List.foldlM_cons, List.foldlM_cons]
    cases hx : step packages x with
    | error e => rfl
    | ok p' => exact foldlM_step_null_congr hits₂ h xs p'

/-- A hit with an absent score key aborts the whole loop with a `KeyError`
(any earlier abort is a `KeyError` too). -/
theorem foldlM_step_absent (hits₂ : List Hit) (h : Hit) : ∀ (hits₁ : List Hit)
    (packages : List PackageRecord),
    List.foldlM step packages (hits₁ ++ { h with score := ScoreField.absent } :: hits₂) =
      .error "KeyError"
  | [], _ => rfl
  | x :: xs, packages => by
    rw [List.cons_append, List.foldlM_cons]
    cases hx : step packages x with
    | error e => rw [step_error_eq hx]; rfl
    | ok p' => exact foldlM_step_absent hits₂ h xs p'

/-- Counterexample to C5 as stated: the claim covers a hit whose score field
is absent, but on such a hit the aggregation does not treat the score as 0 —
it fails with a `KeyError` (the code subscripts `hit['_pypi_ordering']`
before the `None` check). -/
theorem spec_C5_counterexample :
    transform_hits [{ name := "foo", summary := "s", version := "1.0",
                      score := ScoreField.absent }] = Except.error "KeyError" := rfl

/-- C5 (amended).  A hit whose score field is `None` is treated as score 0:
the loop body succeeds carrying score 0, and the whole aggregation is
unchanged if the `None` is replaced by 0.  A hit whose score key is absent
instead aborts the aggregation with a `KeyError`. -/
theorem spec_C5 :
    (∀ (packages : List PackageRecord) (h : Hit),
      step packages { h with score := ScoreField.null } =
        .ok (stepOk packages { h with score := ScoreField.null } 0)) ∧
    (∀ (hits₁ hits₂ : List Hit) (h : Hit),
      transform_hits (hits₁ ++ { h with score := ScoreField.null } :: hits₂) =
        transform_hits (hits₁ ++ { h with score := ScoreField.val 0 } :: hits₂)) ∧
    (∀ (hits₁ hits₂ : List Hit) (h : Hit),
      transform_hits (hits₁ ++ { h with score := ScoreField.absent } :: hits₂) =
        .error "KeyError") := by
  refine ⟨fun _ _ => rfl, ?_, ?_⟩
  · intro hits₁ hits₂ h
    unfold transform_hits aggregate
    rw [foldlM_step_null_congr hits₂ h hits₁ []]
  · intro hits₁ hits₂ h
    unfold transform_hits aggregate
    rw [foldlM_step_absent hits₂ h hits₁ []]
    rfl

/-! ## Rendering lemmas -/

theorem lastVersionShown_ok {h : DisplayRecord} (hv : h.versions ≠ some []) :
    lastVersionShown h = .ok (shownVer h) := by
  cases hvs : h.versions with
  | none => simp [lastVersionShown, shownVer, hvs]
  | some vs =>
    cases vs with
    | nil => exact absurd hvs hv
    | cons v vs' =>
      simp only [lastVersionShown, shownVer, hvs]
      rw [List.getLastD_eq_getLast?]
      cases hgl : (v :: vs').getLast? with
      | none => exact absurd (List.getLast?_eq_none_iff.mp hgl) (by simp)
      | some x => rfl

theorem emitEnc_all {env : Env} (henc : ∀ s, env.canEncode s = true) :
    ∀ l : List String, emitEnc env l = l
  | [] => rfl
  | x :: xs => by simp [emitEnc, henc x, emitEnc_all henc xs]

/-- A record of an uninstalled package with an intact versions list emits
exactly its headline. -/
theorem recordLines_plain {env : Env} {h : DisplayRecord} (ncw : Nat) (tw : Option Int)
    (henc : ∀ s, env.canEncode s = true) (hv : h.versions ≠ some [])
    (hni : h.name ∉ env.installed_packages) :
    recordLines env ncw tw h = ([mainLine ncw tw h (shownVer h)], none) := by
  unfold recordLines
  rw [lastVersionShown_ok hv]
  unfold annotLines
  rw [if_neg hni]
  simp [henc, emitEnc]

/-- A record of an installed package with an intact versions list emits its
headline and the installed annotation, one line when the installed version
is the comparator's maximum and two lines otherwise. -/
theorem recordLines_installed {env : Env} {h : DisplayRecord} (ncw : Nat) (tw : Option Int)
    (henc : ∀ s, env.canEncode s = true) {vs : List String} (hv : h.versions = some vs)
    {latest : String} (hl : highest_version vs = some latest)
    (hin : h.name ∈ env.installed_packages) :
    recordLines env ncw tw h =
      (mainLine ncw tw h (shownVer h) ::
        (if env.installedVersion h.name = latest
         then ["INSTALLED: " ++ env.installedVersion h.name ++ " (latest)"]
         else ["INSTALLED: " ++ env.installedVersion h.name, "LATEST:    " ++ latest]), none) := by
  have hvne : h.versions ≠ some [] := by
    rw [hv]
    intro hc
    injection hc with hc2
    rw [hc2] at hl
    exact Option.noConfusion (show (none : Option String) = some latest from hl)
  by_cases hiv : env.installedVersion h.name = latest
  · simp [recordLines, lastVersionShown_ok hvne, annotLines, hin, hv, hl, hiv, henc,
      emitEnc_all henc]
  · simp [recordLines, lastVersionShown_ok hvne, annotLines, hin, hv, hl, hiv, henc,
      emitEnc_all henc]

/-- The record loop over clean, uninstalled records emits one headline per
record. -/
theorem printLoop_plain {env : Env} (ncw : Nat) (tw : Option Int)
    (henc : ∀ s, env.canEncode s = true) :
    ∀ hits : List DisplayRecord, (∀ h ∈ hits, h.versions ≠ some []) →
      (∀ h ∈ hits, h.name ∉ env.installed_packages) →
      printLoop env ncw tw hits = (hits.map (fun h => mainLine ncw tw h (shownVer h)), none)
  | [], _, _ => rfl
  | h :: rest, hv, hni => by
    show chainOut (recordLines env ncw tw h) (printLoop env ncw tw rest) = _
    rw [recordLines_plain ncw tw henc (hv h (List.mem_cons_self h rest))
        (hni h (List.mem_cons_self h rest)),
      printLoop_plain ncw tw henc rest
        (fun x hx => hv x (List.mem_cons_of_mem h hx))
        (fun x hx => hni x (List.mem_cons_of_mem h hx))]
    rfl

/-- Splitting the record loop at a clean prefix. -/
theorem printLoop_append {env : Env} (ncw : Nat) (tw : Option Int) :
    ∀ (l₁ l₂ : List DisplayRecord), (printLoop env ncw tw l₁).2 = none →
      printLoop env ncw tw (l₁ ++ l₂) =
        ((printLoop env ncw tw l₁).1 ++ (printLoop env ncw tw l₂).1,
         (printLoop env ncw tw l₂).2)
  | [], l₂, _ => by simp [printLoop]
  | h :: rest, l₂, herr => by
    rw [List.cons_append]
    show chainOut (recordLines env ncw tw h) (printLoop env ncw tw (rest ++ l₂)) = _
    cases hrl : (recordLines env ncw tw h).2 with
    | some e =>
      exfalso
      have hcontra : (printLoop env ncw tw (h :: rest)).2 = some e := by
        show (chainOut _ _).2 = _
        unfold chainOut
        rw [hrl]
      rw [herr] at hcontra
      exact Option.noConfusion hcontra
    | none =>
      have h1 : (printLoop env ncw tw (h :: rest)).2 = (printLoop env ncw tw rest).2 := by
        show (chainOut _ _).2 = _
        unfold chainOut
        rw [hrl]
      have h2 : (printLoop env ncw tw (h :: rest)).1 =
          (recordLines env ncw tw h).1 ++ (printLoop env ncw tw rest).1 := by
        show (chainOut _ _).1 = _
        unfold chainOut
        rw [hrl]
      unfold chainOut
      rw [hrl, printLoop_append ncw tw rest l₂ (h1.symm.trans herr), h2, List.append_assoc]

theorem mapM_recordWidth_ok : ∀ (hits : List DisplayRecord),
    (∀ h ∈ hits, h.versions ≠ some []) →
    hits.mapM recordWidth = .ok (hits.map (fun h => h.name.length + (shownVer h).length))
  | [], _ => rfl
  | h :: rest, hv => by
    rw [List.mapM_cons]
    have h1 : recordWidth h = .ok (h.name.length + (shownVer h).length) := by
      unfold recordWidth
      rw [lastVersionShown_ok (hv h (List.mem_cons_self h rest))]
    rw [h1, mapM_recordWidth_ok rest (fun x hx => hv x (List.mem_cons_of_mem h hx))]
    rfl

/-- The computed name column width on clean records. -/
theorem nameColumnWidthOf_ok {hits : List DisplayRecord}
    (hv : ∀ h ∈ hits, h.versions ≠ some []) :
    nameColumnWidthOf hits =
      .ok (maxNat (hits.map (fun h => h.name.length + (shownVer h).length)) + 4) := by
  unfold nameColumnWidthOf
  rw [mapM_recordWidth_ok hits hv]

/-- C6.  Called without an explicit name column width on non-empty records,
`print_results` lays every headline out in a column of width
`4 + max (len(name) + len(lastVersionShown))`, labelling each record
`name (lastVersionShown)` with the last (discovery-order) version, `-`
when versions are absent. -/
theorem spec_C6 (env : Env) (tw : Option Int) (hits : List DisplayRecord)
    (hne : hits ≠ [])
    (hv : ∀ h ∈ hits, h.versions ≠ some [])
    (henc : ∀ s, env.canEncode s = true)
    (hni : ∀ h ∈ hits, h.name ∉ env.installed_packages) :
    print_results hits none tw env =
      (hits.map (fun h =>
        padTo (maxNat (hits.map (fun h2 => h2.name.length + (shownVer h2).length)) + 4)
            (h.name ++ " (" ++ shownVer h ++ ")") ++ " - " ++
          renderSummary
            (maxNat (hits.map (fun h2 => h2.name.length + (shownVer h2).length)) + 4)
            tw h.summary), none) := by
  unfold print_results
  rw [if_neg (fun hc => hne (by simpa using hc))]
  have hncw : ncwOf none hits = Except.ok
      (maxNat (hits.map (fun h2 => h2.name.length + (shownVer h2).length)) + 4) :=
    nameColumnWidthOf_ok hv
  rw [hncw]
  show printLoop env _ tw hits = _
  rw [printLoop_plain _ tw henc hits hv hni]
  rfl

/-- Witness for C6 at a concrete input. -/
theorem spec_C6_witness :
    print_results [rowFoo] none none envPlain =
      ([rowFoo].map (fun h =>
        padTo (maxNat ([rowFoo].map (fun h2 => h2.name.length + (shownVer h2).length)) + 4)
            (h.name ++ " (" ++ shownVer h ++ ")") ++ " - " ++
          renderSummary
            (maxNat ([rowFoo].map (fun h2 => h2.name.length + (shownVer h2).length)) + 4)
            none h.summary), none) :=
  spec_C6 envPlain none [rowFoo] (by simp) (by decide) (fun _ => rfl) (by decide)

/-- C7.  With a known terminal width, `print_results` word-wraps the summary
to `terminal_width - name_column_width - 5` columns, joining wrapped lines
with a newline plus `name_column_width + 3` spaces, exactly when that target
width exceeds 10; when the target is at most 10, or no terminal width is
known, the summary is emitted as a single unwrapped segment. -/
theorem spec_C7 (env : Env) (w : Nat) (t : Int) (hits : List DisplayRecord)
    (hv : ∀ h ∈ hits, h.versions ≠ some [])
    (henc : ∀ s, env.canEncode s = true)
    (hni : ∀ h ∈ hits, h.name ∉ env.installed_packages) :
    (10 < t - (w : Int) - 5 →
      print_results hits (some w) (some t) env =
        (hits.map (fun h =>
          padTo w (h.name ++ " (" ++ shownVer h ++ ")") ++ " - " ++
            String.intercalate ("\n" ++ spaces (w + 3))
              (wrapText (t - (w : Int) - 5).toNat h.summary)), none)) ∧
    (t - (w : Int) - 5 ≤ 10 →
      print_results hits (some w) (some t) env =
        (hits.map (fun h =>
          padTo w (h.name ++ " (" ++ shownVer h ++ ")") ++ " - " ++ h.summary), none)) ∧
    (print_results hits (some w) none env =
      (hits.map (fun h =>
        padTo w (h.name ++ " (" ++ shownVer h ++ ")") ++ " - " ++ h.summary), none)) := by
  have hpr : ∀ tw2 : Option Int, print_results hits (some w) tw2 env =
      (hits.map (fun h => mainLine w tw2 h (shownVer h)), none) := by
    intro tw2
    cases hits with
    | nil => rfl
    | cons a as =>
      unfold print_results
      rw [if_neg (by simp)]
      show printLoop env w tw2 (a :: as) = _
      rw [printLoop_plain w tw2 henc (a :: as) hv hni]
  refine ⟨?_, ?_, ?_⟩
  · intro hcond
    rw [hpr (some t)]
    rw [List.map_congr_left (fun h _ => by
      simp only [mainLine, renderSummary]
      rw [if_pos hcond])]
  · intro hcond
    rw [hpr (some t)]
    rw [List.map_congr_left (fun h _ => by
      simp only [mainLine, renderSummary]
      rw [if_neg (not_lt.mpr hcond)])]
  · rw [hpr none]
    rfl

/-- Witness for C7 at a concrete input (narrow terminal: no wrapping). -/
theorem spec_C7_witness :
    print_results [rowFoo] (some 10) (some 20) envPlain =
      ([rowFoo].map (fun h =>
        padTo 10 (h.name ++ " (" ++ shownVer h ++ ")") ++ " - " ++ h.summary), none) :=
  (spec_C7 envPlain 10 20 [rowFoo] (by decide) (fun _ => rfl) (by decide)).2.1 (by decide)

/-- C8.  A rendered record of an installed package yields, right after its
headline, the single annotation line `INSTALLED: v (latest)` when the
installed version `v` equals `highest_version` of the record's versions,
and otherwise exactly the two lines `INSTALLED: v` then `LATEST:    m`,
in that order. -/
theorem spec_C8 (env : Env) (w : Nat) (tw : Option Int)
    (hits₁ hits₂ : List DisplayRecord) (h : DisplayRecord) (vs : List String) (latest : String)
    (henc : ∀ s, env.canEncode s = true)
    (hv : h.versions = some vs) (hl : highest_version vs = some latest)
    (hin : h.name ∈ env.installed_packages)
    (herr : (printLoop env w tw hits₁).2 = none) :
    print_results (hits₁ ++ h :: hits₂) (some w) tw env =
      ((printLoop env w tw hits₁).1 ++
        (mainLine w tw h (shownVer h) ::
          (if env.installedVersion h.name = latest
           then ["INSTALLED: " ++ env.installedVersion h.name ++ " (latest)"]
           else ["INSTALLED: " ++ env.installedVersion h.name,
                 "LATEST:    " ++ latest])) ++
        (printLoop env w tw hits₂).1,
       (printLoop env w tw hits₂).2) := by
  unfold print_results
  rw [if_neg (by simp)]
  show printLoop env w tw (hits₁ ++ h :: hits₂) = _
  rw [printLoop_append w tw hits₁ (h :: hits₂) herr]
  have hcons : printLoop env w tw (h :: hits₂) =
      ((mainLine w tw h (shownVer h) ::
        (if env.installedVersion h.name = latest
         then ["INSTALLED: " ++ env.installedVersion h.name ++ " (latest)"]
         else ["INSTALLED: " ++ env.installedVersion h.name,
               "LATEST:    " ++ latest])) ++
        (printLoop env w tw hits₂).1, (printLoop env w tw hits₂).2) := by
    show chainOut (recordLines env w tw h) (printLoop env w tw hits₂) = _
    rw [recordLines_installed w tw henc hv hl hin]
    rfl
  rw [hcons, List.append_assoc]

/-- Witness for C8 at a concrete input: installed version `1.0` is not the
maximum of `["1.0", "2.0"]`, so both annotation lines are emitted. -/
theorem spec_C8_witness :
    print_results ([] ++ rowFoo2 :: []) (some 10) none envFoo =
      ((printLoop envFoo 10 none []).1 ++
        (mainLine 10 none rowFoo2 (shownVer rowFoo2) ::
          (if envFoo.installedVersion "foo" = "2.0"
           then ["INSTALLED: " ++ envFoo.installedVersion "foo" ++ " (latest)"]
           else ["INSTALLED: " ++ envFoo.installedVersion "foo", "LATEST:    " ++ "2.0"])) ++
        (printLoop envFoo 10 none []).1,
       (printLoop envFoo 10 none []).2) :=
  spec_C8 envFoo 10 none [] [] rowFoo2 ["1.0", "2.0"] "2.0" (fun _ => rfl) rfl (by decide)
    (by decide) rfl

/-! ## File-driven search -/

/-- Counterexample to C9 as stated: the specifier `>=1.5` does not pin an
exact version, yet `search_from_files` uses its version `1.5` directly for
the release-data lookup (the result is the `1.5` release data, not the data
of the index's latest release `9.9` that the claim's "querying the latest
otherwise" branch would produce). -/
theorem spec_C9_counterexample :
    search_from_files idxC9 [reqGe] = Except.ok [hitFrom15] ∧
    (reqGe.specifier.any (fun s => s.op == "==")) = false ∧
    idxC9.release_data reqGe.name ((idxC9.package_releases reqGe.name).headD "") =
      some hitFrom99 ∧
    search_from_files idxC9 [reqGe] ≠ Except.ok [hitFrom99] := by
  refine ⟨rfl, rfl, rfl, ?_⟩
  intro hc
  have h1 : [hitFrom15] = [hitFrom99] := by injection hc
  have h2 : hitFrom15 = hitFrom99 := by injection h1
  exact absurd h2 (by decide)

/-- C9 (amended).  `search_from_files` resolves each entry's lookup version
as the first listed specifier's version whenever the specifier set is
non-empty — whatever its operator, and without consulting the index's
release list — and as the index's first-listed (latest) release otherwise,
failing with an `IndexError` when the index lists no releases; an entry
whose release-data lookup returns nothing contributes no hit and is
silently skipped (the `.toList` of a missing result is empty). -/
theorem spec_C9 :
    (∀ (idx : Pypi) (reqs : List Requirement) (req : Requirement),
      search_from_files idx (reqs ++ [req]) =
        (search_from_files idx reqs).bind (fun hs => stepReq idx hs req)) ∧
    (∀ (idx : Pypi) (hits : List Hit) (req : Requirement) (s : Specifier)
        (rest : List Specifier), req.specifier = s :: rest →
      stepReq idx hits req = .ok (hits ++ (idx.release_data req.name s.version).toList) ∧
      ∀ f, stepReq { idx with package_releases := f } hits req = stepReq idx hits req) ∧
    (∀ (idx : Pypi) (hits : List Hit) (req : Requirement) (v : String) (vs : List String),
      req.specifier = [] → idx.package_releases req.name = v :: vs →
      stepReq idx hits req = .ok (hits ++ (idx.release_data req.name v).toList)) ∧
    (∀ (idx : Pypi) (hits : List Hit) (req : Requirement),
      req.specifier = [] → idx.package_releases req.name = [] →
      stepReq idx hits req = .error "IndexError") := by
  refine ⟨?_, ?_, ?_, ?_⟩
  · intro idx reqs req
    unfold search_from_files
    rw [List.foldlM_append]
    apply bind_congr
    intro hs
    simp only [List.foldlM_cons, List.foldlM_nil]
    exact bind_pure (stepReq idx hs req)
  · intro idx hits req s rest hspec
    constructor
    · unfold stepReq fileVersion
      rw [hspec]
      cases hrd : idx.release_data req.name s.version <;> simp [Option.toList, hrd]
    · intro f
      simp [stepReq, fileVersion, hspec]
  · intro idx hits req v vs hspec hrel
    unfold stepReq fileVersion
    rw [hspec, hrel]
    cases hrd : idx.release_data req.name v <;> simp [Option.toList, hrd]
  · intro idx hits req hspec hrel
    unfold stepReq fileVersion
    rw [hspec, hrel]

/-- Witness for C9 at concrete inputs, exercising all four branches. -/
theorem spec_C9_witness :
    (search_from_files idxC9 ([] ++ [reqGe]) =
      (search_from_files idxC9 []).bind (fun hs => stepReq idxC9 hs reqGe)) ∧
    (stepReq idxC9 [] reqGe =
      .ok ([] ++ (idxC9.release_data reqGe.name "1.5").toList)) ∧
    (stepReq idxC9 [] reqBar = .ok ([] ++ (idxC9.release_data reqBar.name "9.9").toList)) ∧
    (stepReq idxEmpty [] reqBar = .error "IndexError") :=
  ⟨spec_C9.1 idxC9 [] reqGe,
   (spec_C9.2.1 idxC9 [] reqGe ⟨">=", "1.5"⟩ [] rfl).1,
   spec_C9.2.2.1 idxC9 [] reqBar "9.9" [] rfl rfl,
   spec_C9.2.2.2 idxEmpty [] reqBar rfl rfl⟩

end PipSearch
